import Mathlib

/-
  Verification development for the chunked transcription / paraphrasing /
  synthesis pipeline (speech_to_text.py, paraphrasing.py, text_to_speech.py).

  Strings are embedded as List Char.  Python operations used by the source
  (slicing, substring search via the in operator and str.find, str.split,
  str.replace, str.strip) are given executable embeddings below.
-/

namespace Bakalarka

/-! ## Embedding of Python string primitives -/

/-- First index of needle inside hay (Python hay.find(needle) when it is
nonnegative); none when needle does not occur. The empty needle occurs at 0. -/
def infixIdx? (hay needle : List Char) : Option Nat :=
  if needle.isPrefixOf hay then some 0
  else
    match hay with
    | [] => none
    | _ :: t => (infixIdx? t needle).map (fun k => k + 1)

/-- Python membership test, needle in hay. -/
def pyIn (needle hay : List Char) : Bool :=
  (infixIdx? hay needle).isSome

/-! ## SpeechToText._smart_join_transcriptions (speech_to_text.py 237-283) -/

/-- One candidate overlap length L of the inner loop body (lines 263-277):
end_of_prev = result[-L:], start_of_curr = current[:L]; splice when one is a
substring of the other, none when this L fails. -/
def tryOverlap (result current : List Char) (L : Nat) : Option (List Char) :=
  let end_of_prev := result.drop (result.length - L)
  let start_of_curr := current.take L
  if pyIn end_of_prev start_of_curr then
    match infixIdx? start_of_curr end_of_prev with
    | some pos => some (result ++ current.drop (L - pos))
    | none => none
  else if pyIn start_of_curr end_of_prev then
    match infixIdx? end_of_prev start_of_curr with
    | some pos => some (result.take (result.length - L + pos) ++ current)
    | none => none
  else none

/-- The search loop, for overlap_len in range(start, 10, -1) (line 263): try
lengths start, start-1, ..., 11; on failure of all, fall back to joining with
a single space (line 281). -/
def overlapSearch (result current : List Char) : Nat → List Char
  | 0 => result ++ ' ' :: current
  | L + 1 =>
    if L + 1 ≤ 10 then result ++ ' ' :: current
    else
      match tryOverlap result current (L + 1) with
      | some r => r
      | none => overlapSearch result current L

/-- Combine the running result with the next fragment: the body of the outer
loop, with the search starting at min(100, len(result)). -/
def joinPair (result current : List Char) : List Char :=
  overlapSearch result current (min 100 result.length)

/-- _smart_join_transcriptions: empty list gives the empty string, otherwise
fold joinPair over the fragments in order. -/
def smart_join_transcriptions : List (List Char) → List Char
  | [] => []
  | t :: rest => rest.foldl joinPair t

/-! ## Audio chunk planner (speech_to_text.py 180-192)

The loop `for i in range(0, len(audio), chunk_size_ms)` produces one unit per
stride index: start = max(0, i - overlap) for i > 0 else 0 (Nat subtraction
coincides with Python max(0, i - overlap)), end = min(len(audio), i + stride).
Embedded with an explicit fuel argument (fuel = total duration suffices for a
positive stride) so the definition is structural and executable. -/

def planChunksGo (D s ov : Nat) : Nat → Nat → List (Nat × Nat)
  | _, 0 => []
  | i, fuel + 1 =>
    if i < D then
      (if 0 < i then i - ov else 0, min D (i + s)) :: planChunksGo D s ov (i + s) fuel
    else []

/-- The chunk list for total duration D ms, stride s ms, overlap ov ms. -/
def planChunks (D s ov : Nat) : List (Nat × Nat) :=
  planChunksGo D s ov 0 D

/-! ## Chunking decision (speech_to_text.py 104-133) -/

/-- should_chunk as computed by _transcribe_file_task: the size-or-forced
trigger, overridden to False when the duration decodes below the per-chunk
maximum and chunking was not forced; decode failure (none) keeps the trigger. -/
def shouldChunkDecision (fileSizeBytes : Nat) (sizeThreshold : ℚ)
    (audioMs? : Option Nat) (maxChunkDurationMin : ℚ) (force : Bool) : Bool :=
  let fileSizeMB : ℚ := (fileSizeBytes : ℚ) / (1024 * 1024)
  let sizeOrForced : Bool := decide (sizeThreshold < fileSizeMB) || force
  if sizeOrForced then
    match audioMs? with
    | some ms =>
      if decide ((ms : ℚ) / (1000 * 60) < maxChunkDurationMin) && !force then false
      else sizeOrForced
    | none => sizeOrForced
  else sizeOrForced

inductive TranscribeRoute
  | chunked
  | single
deriving DecidableEq

/-- Dispatch of _transcribe_file_task: _process_in_chunks when should_chunk
holds, _process_single_file otherwise. -/
def transcribeRoute (fileSizeBytes : Nat) (sizeThreshold : ℚ)
    (audioMs? : Option Nat) (maxChunkDurationMin : ℚ) (force : Bool) : TranscribeRoute :=
  if shouldChunkDecision fileSizeBytes sizeThreshold audioMs? maxChunkDurationMin force
  then TranscribeRoute.chunked else TranscribeRoute.single

/-! ## Python str.strip, str.replace (two-char pattern), str.split (two-char
separator), as used by the text chunkers -/

/-- Python whitespace test for the characters str.strip removes (ASCII range). -/
def isPySpace (c : Char) : Bool :=
  c = ' ' || c = '\t' || c = '\n' || c = '\r' || c = '\x0b' || c = '\x0c'

/-- Python str.strip(): drop whitespace from both ends. -/
def pyStrip (s : List Char) : List Char :=
  (((s.dropWhile isPySpace).reverse).dropWhile isPySpace).reverse

/-- Python s.replace(old, new) for two-character old and new, left to right,
non-overlapping. -/
def replacePair (a b c d : Char) : List Char → List Char
  | [] => []
  | [x] => [x]
  | x :: y :: rest =>
    if x = a && y = b then c :: d :: replacePair a b c d rest
    else x :: replacePair a b c d (y :: rest)

/-- Python s.split(sep) for a two-character separator; always returns at least
one (possibly empty) segment. -/
def splitPair (a b : Char) : List Char → List (List Char)
  | [] => [[]]
  | [x] => [[x]]
  | x :: y :: rest =>
    if x = a && y = b then [] :: splitPair a b rest
    else
      match splitPair a b (y :: rest) with
      | [] => [[x]]
      | seg :: segs => (x :: seg) :: segs

/-! ## TextToSpeech._split_text_into_chunks (text_to_speech.py 320-354) -/

/-- Sentence phase (lines 333-336): replace "! " with "!.", "? " with "?.",
split on ". ", keep nonempty pieces, strip each and re-append a period. -/
def ttsSentences (text : List Char) : List (List Char) :=
  ((splitPair '.' ' ' (replacePair '?' ' ' '?' '.' (replacePair '!' ' ' '!' '.' text))).filter
    (fun sentence => !sentence.isEmpty)).map (fun sentence => pyStrip sentence ++ ['.'])

/-- Packing loop (lines 338-353): close the current chunk (stripped) when
adding the next sentence would exceed chunk_size and the chunk is nonempty;
always append a space plus the sentence; emit the final stripped chunk. -/
def ttsPackLoop (chunkSize : Nat) :
    List (List Char) → List (List Char) → List Char → List (List Char)
  | [], chunks, cur => if cur = [] then chunks else chunks ++ [pyStrip cur]
  | sentence :: rest, chunks, cur =>
    if chunkSize < cur.length + sentence.length ∧ cur ≠ [] then
      ttsPackLoop chunkSize rest (chunks ++ [pyStrip cur]) ([] ++ ' ' :: sentence)
    else
      ttsPackLoop chunkSize rest chunks (cur ++ ' ' :: sentence)

/-- _split_text_into_chunks. -/
def split_text_into_chunks (text : List Char) (chunkSize : Nat) : List (List Char) :=
  ttsPackLoop chunkSize (ttsSentences text) [] []

/-! ## TextParaphraser._process_in_chunks sentence packing (paraphrasing.py
195-215) -/

/-- Packing loop: when current plus ". " plus the sentence fits inside
chunk_size, join; otherwise emit current + "." and restart from the sentence;
finally emit the leftover + ".". -/
def paraPackLoop (chunkSize : Nat) :
    List (List Char) → List (List Char) → List Char → List (List Char)
  | [], chunks, cur => if cur = [] then chunks else chunks ++ [cur ++ ['.']]
  | sentence :: rest, chunks, cur =>
    if cur.length + sentence.length + 2 ≤ chunkSize then
      if cur = [] then paraPackLoop chunkSize rest chunks sentence
      else paraPackLoop chunkSize rest chunks (cur ++ '.' :: ' ' :: sentence)
    else
      if cur = [] then paraPackLoop chunkSize rest chunks sentence
      else paraPackLoop chunkSize rest (chunks ++ [cur ++ ['.']]) sentence

/-- Sentences of the paraphrasing chunker: text.split(". "). -/
def paraSentences (text : List Char) : List (List Char) :=
  splitPair '.' ' ' text

/-- The chunk list built by _process_in_chunks before the per-chunk loop. -/
def paraChunks (text : List Char) (chunkSize : Nat) : List (List Char) :=
  paraPackLoop chunkSize (paraSentences text) [] []

/-! ## Start-call mutual exclusion (speech_to_text.py 63-88,
paraphrasing.py 47-71) -/

structure SpeechToTextState where
  is_transcribing : Bool
  current_job : Option (List Char)
deriving DecidableEq

structure TextParaphraserState where
  is_paraphrasing : Bool
  current_job : Option (List Char)
deriving DecidableEq

inductive StartOutcome
  | started
  | raisedRuntimeError
deriving DecidableEq

/-- transcribe_file: raise RuntimeError while a job is active (before any
mutation), otherwise mark active, record the job and start the worker. -/
def transcribe_file (st : SpeechToTextState) (file_path : List Char) :
    StartOutcome × SpeechToTextState :=
  if st.is_transcribing then (StartOutcome.raisedRuntimeError, st)
  else (StartOutcome.started,
    { is_transcribing := true, current_job := some file_path })

/-- paraphrase_text: same guard; current_job is the text truncated to 50
characters plus "..." when longer than 50. -/
def paraphrase_text (st : TextParaphraserState) (text : List Char) :
    StartOutcome × TextParaphraserState :=
  if st.is_paraphrasing then (StartOutcome.raisedRuntimeError, st)
  else (StartOutcome.started,
    { is_paraphrasing := true,
      current_job := some (if 50 < text.length
        then text.take 50 ++ ['.', '.', '.'] else text) })

/-! ## The chunked transcription run (speech_to_text.py 111-114 and 171-235)

The per-unit external call is an oracle proc : Nat → Option (List Char)
(none = the Deepgram call raises).  Cooperative cancellation is cancel? :
Option Nat: some k means the is_transcribing flag reads false from the check
before unit k onwards.  The loop body: check flag (break), emit progress
(i / total) * 0.9, call the service inside try/finally (file cleanup only: an
exception propagates to the except of _process_in_chunks), append the result.
After the loop: smart-join, emit progress 1.0, deliver the text; on a raised
exception the error callback is delivered instead (no 1.0). -/

def cancelHit (cancel? : Option Nat) (i : Nat) : Bool :=
  match cancel? with
  | some k => decide (k ≤ i)
  | none => false

/-- The for-loop over chunks: returns (collected transcriptions, progress
values emitted by the loop, whether an exception escaped).  fuel = n at the
top call; i is the current unit index. -/
def sttLoop (proc : Nat → Option (List Char)) (cancel? : Option Nat) (n : Nat) :
    Nat → Nat → List (List Char) × List ℚ × Bool
  | _, 0 => ([], [], false)
  | i, fuel + 1 =>
    if i < n then
      if cancelHit cancel? i then ([], [], false)
      else
        match proc i with
        | none => ([], [(i : ℚ) / (n : ℚ) * (9 / 10)], true)
        | some t =>
          let r := sttLoop proc cancel? n (i + 1) fuel
          (t :: r.1, (i : ℚ) / (n : ℚ) * (9 / 10) :: r.2.1, r.2.2)
    else ([], [], false)

/-- One chunked run over n planned units: the delivered completion payload
(some text through the success callback, none when the error callback fires)
and the full ordered progress trace (the initial 0.05 of
_transcribe_file_task line 114, the loop values, and the final 1.0 on the
non-raising path). -/
def sttChunkedRun (proc : Nat → Option (List Char)) (cancel? : Option Nat)
    (n : Nat) : Option (List Char) × List ℚ :=
  let r := sttLoop proc cancel? n 0 n
  if r.2.2 then (none, (1 / 20 : ℚ) :: r.2.1)
  else (some (smart_join_transcriptions r.1), ((1 / 20 : ℚ) :: r.2.1) ++ [1])

/-! ## TextToSpeech.synthesize_speech pre-request phase (text_to_speech.py
30-91) -/

/-- A Python value as far as the default-output-path expression needs:
hash(text) is an int, slicing is defined on str and raises TypeError on int. -/
inductive PyVal
  | intV (n : Int)
  | strV (s : List Char)
deriving DecidableEq

inductive PyExc
  | valueError
  | typeError
deriving DecidableEq

/-- Python v[:stop]: defined for str, TypeError for int. -/
def pySliceTo (v : PyVal) (stop : Nat) : Except PyExc PyVal :=
  match v with
  | PyVal.strV s => Except.ok (PyVal.strV (s.take stop))
  | PyVal.intV _ => Except.error PyExc.typeError

/-- The Python builtin hash on a string returns an int (its value is
process-randomized and irrelevant here; only its type matters). -/
def pyHash (text : List Char) : PyVal :=
  PyVal.intV (text.length : Int)

/-- The VOICES table of TextToSpeech. -/
def VOICES : List (String × String) :=
  [("czech_male", "Oldrich30"), ("czech_female", "Ilona30"),
   ("english_female", "Emma30"), ("english_male", "Tim30")]

/-- engine = VOICES.get(voice); if absent, accept a value given directly. -/
def resolveEngine (voice : String) : Option String :=
  match VOICES.lookup voice with
  | some e => some e
  | none => if voice ∈ VOICES.map Prod.snd then some voice else none

/-- What synthesize_speech does before the network call. -/
inductive SynthPre
  | raised (e : PyExc)
  | request (engine : String) (output_path : PyVal)
deriving DecidableEq

/-- synthesize_speech up to (and excluding) requests.post: empty text raises
ValueError, unknown voice raises ValueError, a missing output_path evaluates
the default path containing hash(text)[:8]. -/
def synthesize_speech_pre (text : List Char) (voice : String)
    (output_format : String) (output_path : Option (List Char)) : SynthPre :=
  if text.isEmpty then SynthPre.raised PyExc.valueError
  else
    match resolveEngine voice with
    | none => SynthPre.raised PyExc.valueError
    | some engine =>
      match output_path with
      | some p => SynthPre.request engine (PyVal.strV p)
      | none =>
        match pySliceTo (pyHash text) 8 with
        | Except.error e => SynthPre.raised e
        | Except.ok frag => SynthPre.request engine frag

/-! ## Concrete inputs for counterexamples and witnesses -/

/-- Unit oracle: unit 1 raises, units 0 and 2 succeed. -/
def procUnitOneFails : Nat → Option (List Char)
  | 0 => some ['r', '0']
  | 1 => none
  | _ => some ['r', '2']

/-- Unit oracle: every unit succeeds with a distinct short result. -/
def procAllSucceed : Nat → Option (List Char)
  | 0 => some ['r', '0']
  | 1 => some ['r', '1']
  | _ => some ['r', '2']

/-- Unit oracle: the very first unit raises. -/
def procFirstFails : Nat → Option (List Char)
  | _ => none

/-! ## Theorems -/

/-- C3 counterexample: stitching the two given fragments does NOT yield the
text the claim states; the shared boundary phrase is not collapsed. -/
theorem C3_counterexample :
    smart_join_transcriptions
      ["...the quick brown fox".toList, "brown fox jumps over".toList] ≠
      "...the quick brown fox jumps over".toList := by
  decide

/-- C3 amended: the shared boundary substring "brown fox" has only 9
characters, below the minimum trusted overlap length (the search stops at 11),
so no overlap is detected and the fragments are joined with a single space,
duplicating "brown fox" in the output. -/
theorem C3_stitch_duplicates_short_overlap :
    smart_join_transcriptions
      ["...the quick brown fox".toList, "brown fox jumps over".toList] =
      "...the quick brown fox brown fox jumps over".toList := by
  decide

/-- C5: the transcription pipeline chunks iff the size-or-forced trigger fires
and the decoded duration does not override it (duration below the per-chunk
maximum without forcing); with an undecodable duration the decision is the
size-or-forced trigger alone; inputs failing the decision take the
single-file route. -/
theorem C5_chunk_decision (bytes : Nat) (thr : ℚ) (ms? : Option Nat)
    (maxd : ℚ) (force : Bool) :
    (shouldChunkDecision bytes thr ms? maxd force = true ↔
      ((thr < (bytes : ℚ) / (1024 * 1024) ∨ force = true) ∧
        ¬ ∃ ms, ms? = some ms ∧ (ms : ℚ) / (1000 * 60) < maxd ∧ force = false)) ∧
    (ms? = none →
      shouldChunkDecision bytes thr ms? maxd force =
        (decide (thr < (bytes : ℚ) / (1024 * 1024)) || force)) ∧
    (transcribeRoute bytes thr ms? maxd force = TranscribeRoute.single ↔
      shouldChunkDecision bytes thr ms? maxd force = false) := by
  refine ⟨?_, ?_, ?_⟩
  · cases ms? with
    | none =>
      by_cases h1 : thr < (bytes : ℚ) / (1024 * 1024) <;>
        cases force <;> simp [shouldChunkDecision, h1]
    | some ms =>
      by_cases h1 : thr < (bytes : ℚ) / (1024 * 1024) <;>
        by_cases h2 : (ms : ℚ) / (1000 * 60) < maxd <;>
          cases force <;> simp [shouldChunkDecision, h1, h2]
  · intro h
    subst h
    by_cases h1 : thr < (bytes : ℚ) / (1024 * 1024) <;>
      cases force <;> simp [shouldChunkDecision, h1]
  · unfold transcribeRoute
    cases h : shouldChunkDecision bytes thr ms? maxd force <;> simp [h]

/-- C5 witness: a 500 MB file whose duration cannot be decoded falls back to
the size-only decision. -/
theorem C5_chunk_decision_witness :
    shouldChunkDecision 524288000 100 none 30 false =
      (decide ((100 : ℚ) < (524288000 : ℚ) / (1024 * 1024)) || false) :=
  (C5_chunk_decision 524288000 100 none 30 false).2.1 rfl

/-- Helper: index bound against the ceiling chunk count. -/
theorem lt_ceil_count_of_mul_lt {D s k : Nat} (hs : 0 < s) (h : k * s < D) :
    k < (D + s - 1) / s := by
  have h1 : (k + 1) * s ≤ D + s - 1 := by
    rw [Nat.succ_mul]
    omega
  have h2 := (Nat.le_div_iff_mul_le hs).2 h1
  omega

/-- Helper: ceiling chunk count bound when the stride index has passed D. -/
theorem ceil_count_le_of_le_mul {D s k : Nat} (hs : 0 < s) (h : D ≤ k * s) :
    (D + s - 1) / s ≤ k := by
  rw [Nat.div_le_iff_le_mul_add_pred hs]
  rw [Nat.mul_comm k s] at h
  omega

/-- Closed form of the planner loop: starting the stride walk at index k*s
with enough fuel yields one unit per stride index from k up to the ceiling
count. -/
theorem planChunksGo_closed (D s ov : Nat) (hs : 0 < s) :
    ∀ fuel k, D ≤ (k + fuel) * s →
      planChunksGo D s ov (k * s) fuel =
        (List.range' k ((D + s - 1) / s - k)).map
          (fun j =>
            (if 0 < j * s then j * s - ov else 0, min D (j * s + s))) := by
  intro fuel
  induction fuel with
  | zero =>
    intro k hk
    rw [Nat.add_zero] at hk
    rw [Nat.sub_eq_zero_of_le (ceil_count_le_of_le_mul hs hk)]
    rfl
  | succ fuel ih =>
    intro k hk
    by_cases h : k * s < D
    · have hklt : k < (D + s - 1) / s := lt_ceil_count_of_mul_lt hs h
      have hcnt : (D + s - 1) / s - k = ((D + s - 1) / s - (k + 1)) + 1 := by
        omega
      have hk2 : D ≤ ((k + 1) + fuel) * s := by
        have e : (k + 1) + fuel = k + (fuel + 1) := by omega
        rw [e]
        exact hk
      have hstep : k * s + s = (k + 1) * s := (Nat.succ_mul k s).symm
      rw [hcnt, List.range'_succ, List.map_cons]
      show planChunksGo D s ov (k * s) (fuel + 1) = _
      rw [planChunksGo, if_pos h, hstep, ih (k + 1) hk2]
    · have hD : D ≤ k * s := Nat.le_of_not_lt h
      rw [Nat.sub_eq_zero_of_le (ceil_count_le_of_le_mul hs hD)]
      show planChunksGo D s ov (k * s) (fuel + 1) = []
      rw [planChunksGo, if_neg h]

/-- Closed form of planChunks. -/
theorem planChunks_closed (D s ov : Nat) (hs : 0 < s) :
    planChunks D s ov =
      (List.range ((D + s - 1) / s)).map
        (fun j =>
          (if 0 < j * s then j * s - ov else 0, min D (j * s + s))) := by
  have h0 : D ≤ (0 + D) * s := by
    rw [Nat.zero_add]
    calc D = D * 1 := (Nat.mul_one D).symm
    _ ≤ D * s := Nat.mul_le_mul_left D hs
  have := planChunksGo_closed D s ov hs D 0 h0
  rw [Nat.zero_mul] at this
  rw [planChunks, this, List.range_eq_range']
  simp

/-- C4: the audio planner produces exactly ceil(D / stride) units; unit 0
starts at 0 and unit j starts at max(0, j*stride - overlap) (stated over the
integers, where max is meaningful), unit j ends at min(D, j*stride + stride);
the non-overlap cores tile [0, D) with no gaps and no core exceeds the
stride (the final one may be shorter). -/
theorem C4_audio_planner (D s ov : Nat) (hs : 0 < s) :
    (planChunks D s ov).length = (D + s - 1) / s ∧
    (∀ j, ∀ hj : j < (planChunks D s ov).length,
      (planChunks D s ov).get ⟨j, hj⟩ =
          (if 0 < j then j * s - ov else 0, min D (j * s + s)) ∧
      (((planChunks D s ov).get ⟨j, hj⟩).1 : Int) =
          max 0 ((j : Int) * (s : Int) - (ov : Int)) ∧
      ((planChunks D s ov).get ⟨j, hj⟩).2 - j * s ≤ s) ∧
    (∀ t, t < D → ∃ j, ∃ hj : j < (planChunks D s ov).length,
      j * s ≤ t ∧ t < ((planChunks D s ov).get ⟨j, hj⟩).2) := by
  have hP := planChunks_closed D s ov hs
  have hlen : (planChunks D s ov).length = (D + s - 1) / s := by
    rw [hP, List.length_map, List.length_range]
  have hget : ∀ j, ∀ hj : j < (planChunks D s ov).length,
      (planChunks D s ov).get ⟨j, hj⟩ =
        (if 0 < j * s then j * s - ov else 0, min D (j * s + s)) := by
    intro j hj
    have hj2 : j < (D + s - 1) / s := by rw [← hlen]; exact hj
    simp [hP, List.get_map, List.get_range]
  refine ⟨hlen, fun j hj => ?_, fun t ht => ?_⟩
  · refine ⟨?_, ?_, ?_⟩
    · rw [hget j hj]
      cases j with
      | zero => simp
      | succ m => simp [Nat.succ_mul_pos m hs]
    · rw [hget j hj]
      cases j with
      | zero => simp
      | succ m =>
        have hpos : 0 < (m + 1) * s := Nat.succ_mul_pos m hs
        simp only [if_pos hpos]
        omega
    · rw [hget j hj]
      simp only
      omega
  · refine ⟨t / s, ?_, ?_, ?_⟩
    · rw [hlen]
      exact lt_ceil_count_of_mul_lt hs (Nat.lt_of_le_of_lt (Nat.div_mul_le_self t s) ht)
    · exact Nat.div_mul_le_self t s
    · rw [hget (t / s)
        (by rw [hlen];
            exact lt_ceil_count_of_mul_lt hs
              (Nat.lt_of_le_of_lt (Nat.div_mul_le_self t s) ht))]
      have h1 := Nat.div_add_mod t s
      have h2 := Nat.mod_lt t hs
      rw [Nat.mul_comm s (t / s)] at h1
      simp only
      omega

/-- C4 witness: a 5 ms input with stride 2 ms and 1 ms overlap plans
ceil(5/2) = 3 units. -/
theorem C4_audio_planner_witness :
    0 < 2 ∧ (planChunks 5 2 1).length = 3 := by
  refine ⟨by decide, ?_⟩
  simpa using (C4_audio_planner 5 2 1 (by decide)).1

/-- Helper: the head surviving dropWhile fails the predicate. -/
theorem head_dropWhile_false (p : Char → Bool) :
    ∀ (l : List Char) (h : Char), (l.dropWhile p).head? = some h → p h = false := by
  intro l
  induction l with
  | nil => intro h hh; simp at hh
  | cons c t ih =>
    intro h hh
    by_cases hc : p c
    · rw [List.dropWhile_cons_of_pos hc] at hh
      exact ih h hh
    · rw [List.dropWhile_cons_of_neg hc] at hh
      simp only [List.head?_cons, Option.some.injEq] at hh
      subst hh
      simpa using hc

/-- Helper: dropWhile only removes a prefix, so a nonempty result keeps the
last element. -/
theorem getLast_dropWhile_of_ne_nil (p : Char → Bool) :
    ∀ l : List Char, l.dropWhile p ≠ [] →
      (l.dropWhile p).getLast? = l.getLast? := by
  intro l
  induction l with
  | nil => intro h; simp at h
  | cons c t ih =>
    intro hne
    by_cases hc : p c
    · rw [List.dropWhile_cons_of_pos hc] at hne ⊢
      have htne : t ≠ [] := by
        intro he
        subst he
        simp at hne
      rw [ih hne]
      cases t with
      | nil => exact absurd rfl htne
      | cons x t2 => rw [List.getLast?_cons_cons]
    · rw [List.dropWhile_cons_of_neg hc]

/-- Helper: a stripped string does not start with whitespace. -/
theorem pyStrip_head_not_space (l : List Char) (h : Char)
    (hh : (pyStrip l).head? = some h) : isPySpace h = false := by
  unfold pyStrip at hh
  rw [List.head?_reverse] at hh
  have hne : ((l.dropWhile isPySpace).reverse.dropWhile isPySpace) ≠ [] := by
    intro he
    rw [he] at hh
    simp at hh
  rw [getLast_dropWhile_of_ne_nil isPySpace _ hne, List.getLast?_reverse] at hh
  exact head_dropWhile_false isPySpace _ h hh

/-- Helper: a stripped string does not end with whitespace. -/
theorem pyStrip_getLast_not_space (l : List Char) (h : Char)
    (hh : (pyStrip l).getLast? = some h) : isPySpace h = false := by
  unfold pyStrip at hh
  rw [List.getLast?_reverse] at hh
  exact head_dropWhile_false isPySpace _ h hh

/-- Helper: stripping a single leading space from a string with no whitespace
at either end removes exactly that space. -/
theorem pyStrip_cons_space (m : List Char) (hm : m ≠ [])
    (hh : ∀ h, m.head? = some h → isPySpace h = false)
    (hl : ∀ h, m.getLast? = some h → isPySpace h = false) :
    pyStrip (' ' :: m) = m := by
  unfold pyStrip
  rw [List.dropWhile_cons_of_pos (by decide : isPySpace ' ' = true)]
  have h1 : List.dropWhile isPySpace m = m := by
    cases m with
    | nil => rfl
    | cons c t =>
      rw [List.dropWhile_cons_of_neg]
      simp [hh c rfl]
  rw [h1]
  have h2 : List.dropWhile isPySpace m.reverse = m.reverse := by
    cases hr : m.reverse with
    | nil => rfl
    | cons c t =>
      have hc : m.getLast? = some c := by
        rw [← List.head?_reverse, hr]
        rfl
      rw [List.dropWhile_cons_of_neg]
      simp [hl c hc]
  rw [h2, List.reverse_reverse]

/-- The shape every sentence produced by ttsSentences has: nonempty, no
whitespace at either end (it is a stripped string with a period appended). -/
theorem ttsSentences_shape (text : List Char) :
    ∀ s ∈ ttsSentences text, s ≠ [] ∧
      (∀ h, s.head? = some h → isPySpace h = false) ∧
      (∀ h, s.getLast? = some h → isPySpace h = false) := by
  intro s hs
  unfold ttsSentences at hs
  rw [List.mem_map] at hs
  obtain ⟨x, _, hx⟩ := hs
  subst hx
  refine ⟨by simp, ?_, ?_⟩
  · intro h hh
    cases hps : pyStrip x with
    | nil =>
      rw [hps] at hh
      simp only [List.nil_append, List.head?_cons, Option.some.injEq] at hh
      subst hh
      rfl
    | cons c t =>
      rw [hps, List.cons_append, List.head?_cons] at hh
      have hc : (pyStrip x).head? = some c := by rw [hps]; rfl
      have := pyStrip_head_not_space x c hc
      simp only [Option.some.injEq] at hh
      subst hh
      exact this
  · intro h hh
    rw [List.getLast?_concat] at hh
    simp only [Option.some.injEq] at hh
    subst hh
    rfl

/-- Helper: invariant of the TTS packing loop.  With sentences drawn from S
(all nonempty, whitespace-free at the ends), every emitted chunk either fits
in the size bound or is a single sentence of S verbatim. -/
theorem ttsPackLoop_bounded (size : Nat) (S : List (List Char))
    (hS : ∀ s ∈ S, s ≠ [] ∧
      (∀ h, s.head? = some h → isPySpace h = false) ∧
      (∀ h, s.getLast? = some h → isPySpace h = false)) :
    ∀ sentences chunks cur,
      (∀ s ∈ sentences, s ∈ S) →
      (∀ c ∈ chunks, c.length ≤ size ∨ c ∈ S) →
      (cur = [] ∨ ∃ m, cur = ' ' :: m ∧ m ≠ [] ∧
        (∀ h, m.head? = some h → isPySpace h = false) ∧
        (∀ h, m.getLast? = some h → isPySpace h = false) ∧
        (m.length ≤ size ∨ m ∈ S)) →
      ∀ c ∈ ttsPackLoop size sentences chunks cur, c.length ≤ size ∨ c ∈ S := by
  intro sentences
  induction sentences with
  | nil =>
    intro chunks cur hsub hchunks hcur c hc
    rcases hcur with hnil | ⟨m, hm, hmne, hmh, hml, hmP⟩
    · subst hnil
      rw [ttsPackLoop, if_pos rfl] at hc
      exact hchunks c hc
    · subst hm
      rw [ttsPackLoop, if_neg (List.cons_ne_nil ' ' m),
        pyStrip_cons_space m hmne hmh hml] at hc
      rcases List.mem_append.1 hc with hc | hc
      · exact hchunks c hc
      · rw [List.mem_singleton] at hc
        subst hc
        exact hmP
  | cons s rest ih =>
    intro chunks cur hsub hchunks hcur c hc
    have hsS : s ∈ S := hsub s (List.mem_cons_self s rest)
    obtain ⟨hsne, hsh, hsl⟩ := hS s hsS
    have hsubr : ∀ x ∈ rest, x ∈ S := fun x hx => hsub x (List.mem_cons_of_mem s hx)
    have hnewS : (' ' :: s) = [] ∨ ∃ m, ' ' :: s = ' ' :: m ∧ m ≠ [] ∧
        (∀ h, m.head? = some h → isPySpace h = false) ∧
        (∀ h, m.getLast? = some h → isPySpace h = false) ∧
        (m.length ≤ size ∨ m ∈ S) :=
      Or.inr ⟨s, rfl, hsne, hsh, hsl, Or.inr hsS⟩
    rcases hcur with hnil | ⟨m, hm, hmne, hmh, hml, hmP⟩
    · subst hnil
      rw [ttsPackLoop, if_neg (fun h => h.2 rfl)] at hc
      exact ih chunks ([] ++ ' ' :: s) hsubr hchunks hnewS c hc
    · subst hm
      by_cases hsz : size < (' ' :: m).length + s.length
      · rw [ttsPackLoop, if_pos ⟨hsz, List.cons_ne_nil ' ' m⟩,
          pyStrip_cons_space m hmne hmh hml] at hc
        refine ih (chunks ++ [m]) ([] ++ ' ' :: s) hsubr ?_ hnewS c hc
        intro x hx
        rcases List.mem_append.1 hx with hx | hx
        · exact hchunks x hx
        · rw [List.mem_singleton] at hx
          subst hx
          exact hmP
      · rw [ttsPackLoop, if_neg (fun h => hsz h.1)] at hc
        refine ih chunks ((' ' :: m) ++ ' ' :: s)
          hsubr hchunks (Or.inr ?_) c hc
        refine ⟨m ++ ' ' :: s, by simp, by simp, ?_, ?_, ?_⟩
        · intro h hh
          rw [List.head?_append_of_ne_nil m hmne] at hh
          exact hmh h hh
        · intro h hh
          rw [List.getLast?_append_of_ne_nil m (by simp)] at hh
          cases s with
          | nil => exact absurd rfl hsne
          | cons x t =>
            rw [List.getLast?_cons_cons] at hh
            exact hsl h hh
        · left
          have hlen : (' ' :: m).length + s.length ≤ size := Nat.le_of_not_lt hsz
          simp only [List.length_cons] at hlen
          simp only [List.length_append, List.length_cons]
          omega

/-- Helper: invariant of the paraphrasing packing loop.  Every emitted chunk
has length at most size + 1 or is a single sentence of S with the period
appended. -/
theorem paraPackLoop_bounded (size : Nat) (S : List (List Char)) :
    ∀ sentences chunks cur,
      (∀ s ∈ sentences, s ∈ S) →
      (∀ c ∈ chunks, c.length ≤ size + 1 ∨ ∃ s ∈ S, c = s ++ ['.']) →
      (cur = [] ∨ cur.length ≤ size ∨ cur ∈ S) →
      ∀ c ∈ paraPackLoop size sentences chunks cur,
        c.length ≤ size + 1 ∨ ∃ s ∈ S, c = s ++ ['.'] := by
  intro sentences
  induction sentences with
  | nil =>
    intro chunks cur hsub hchunks hcur c hc
    by_cases hnil : cur = []
    · subst hnil
      rw [paraPackLoop, if_pos rfl] at hc
      exact hchunks c hc
    · rw [paraPackLoop, if_neg hnil] at hc
      rcases List.mem_append.1 hc with hc | hc
      · exact hchunks c hc
      · rw [List.mem_singleton] at hc
        subst hc
        rcases hcur with h | hlen | hmem
        · exact absurd h hnil
        · left
          simp only [List.length_append, List.length_cons, List.length_nil]
          omega
        · right
          exact ⟨cur, hmem, rfl⟩
  | cons s rest ih =>
    intro chunks cur hsub hchunks hcur c hc
    have hsS : s ∈ S := hsub s (List.mem_cons_self s rest)
    have hsubr : ∀ x ∈ rest, x ∈ S := fun x hx => hsub x (List.mem_cons_of_mem s hx)
    by_cases hfit : cur.length + s.length + 2 ≤ size
    · by_cases hnil : cur = []
      · rw [paraPackLoop, if_pos hfit, if_pos hnil] at hc
        exact ih chunks s hsubr hchunks (Or.inr (Or.inr hsS)) c hc
      · rw [paraPackLoop, if_pos hfit, if_neg hnil] at hc
        refine ih chunks (cur ++ '.' :: ' ' :: s)
          hsubr hchunks (Or.inr (Or.inl ?_)) c hc
        simp only [List.length_append, List.length_cons]
        omega
    · by_cases hnil : cur = []
      · rw [paraPackLoop, if_neg hfit, if_pos hnil] at hc
        exact ih chunks s hsubr hchunks (Or.inr (Or.inr hsS)) c hc
      · rw [paraPackLoop, if_neg hfit, if_neg hnil] at hc
        refine ih (chunks ++ [cur ++ ['.']]) s hsubr ?_
          (Or.inr (Or.inr hsS)) c hc
        intro x hx
        rcases List.mem_append.1 hx with hx | hx
        · exact hchunks x hx
        · rw [List.mem_singleton] at hx
          subst hx
          rcases hcur with h | hlen | hmem
          · exact absurd h hnil
          · left
            simp only [List.length_append, List.length_cons, List.length_nil]
            omega
          · right
            exact ⟨cur, hmem, rfl⟩

/-- C6 counterexample: with maxUnitChars = 10 and text "aaaa. bbbb. cc", the
paraphrasing packer emits the unit "aaaa. bbbb." of length 11 > 10, which is
not a single sentence (neither verbatim nor as a sentence plus its period):
the period is re-appended only after the size check, so a multi-sentence unit
can exceed the bound. -/
theorem C6_counterexample :
    "aaaa. bbbb.".toList ∈ paraChunks "aaaa. bbbb. cc".toList 10 ∧
    10 < ("aaaa. bbbb.".toList).length ∧
    "aaaa. bbbb.".toList ∉ paraSentences "aaaa. bbbb. cc".toList ∧
    ∀ s ∈ paraSentences "aaaa. bbbb. cc".toList,
      "aaaa. bbbb.".toList ≠ s ++ ['.'] := by
  decide

/-- C6 amended: the TTS packer (_split_text_into_chunks) satisfies the claim
as stated: every unit fits in maxUnitChars or is a single (oversized)
sentence verbatim.  The paraphrasing packer appends the closing period after
the size check, so its guarantee is weaker by exactly one character: every
unit has length at most maxUnitChars + 1 or is a single sentence plus its
re-appended period. -/
theorem C6_amended_sentence_packing (text : List Char) (size : Nat) :
    (∀ c ∈ split_text_into_chunks text size,
      c.length ≤ size ∨ c ∈ ttsSentences text) ∧
    (∀ c ∈ paraChunks text size,
      c.length ≤ size + 1 ∨ ∃ s ∈ paraSentences text, c = s ++ ['.']) := by
  constructor
  · intro c hc
    exact ttsPackLoop_bounded size (ttsSentences text) (ttsSentences_shape text)
      (ttsSentences text) [] [] (fun s hs => hs) (fun x hx => absurd hx (by simp))
      (Or.inl rfl) c hc
  · intro c hc
    exact paraPackLoop_bounded size (paraSentences text) (paraSentences text)
      [] [] (fun s hs => hs) (fun x hx => absurd hx (by simp))
      (Or.inl rfl) c hc

/-- C7: invoking the start operation while a run is active raises RuntimeError
synchronously and leaves the state (activity flag, current job) unaltered;
when no run is active the invocation starts a run. Both the transcription and
the paraphrasing processor are covered. -/
theorem C7_mutual_exclusion (st : SpeechToTextState) (ps : TextParaphraserState)
    (f t : List Char) :
    (st.is_transcribing = true →
      transcribe_file st f = (StartOutcome.raisedRuntimeError, st)) ∧
    (st.is_transcribing = false →
      (transcribe_file st f).1 = StartOutcome.started ∧
      (transcribe_file st f).2.is_transcribing = true ∧
      (transcribe_file st f).2.current_job = some f) ∧
    (ps.is_paraphrasing = true →
      paraphrase_text ps t = (StartOutcome.raisedRuntimeError, ps)) ∧
    (ps.is_paraphrasing = false →
      (paraphrase_text ps t).1 = StartOutcome.started ∧
      (paraphrase_text ps t).2.is_paraphrasing = true) := by
  refine ⟨fun h => ?_, fun h => ?_, fun h => ?_, fun h => ?_⟩ <;>
    simp [transcribe_file, paraphrase_text, h]

/-- C7 witness: with a transcription already active, a second start call
returns the RuntimeError outcome and the untouched state. -/
theorem C7_mutual_exclusion_witness :
    transcribe_file
        { is_transcribing := true, current_job := some ['a'] } ['b'] =
      (StartOutcome.raisedRuntimeError,
        { is_transcribing := true, current_job := some ['a'] }) :=
  (C7_mutual_exclusion
      { is_transcribing := true, current_job := some ['a'] }
      { is_paraphrasing := false, current_job := none } ['b'] []).1 rfl

/-- Helper: when the units before k succeed and unit k raises, the loop
escapes with the exception flag set. -/
theorem sttLoop_abort (proc : Nat → Option (List Char)) (n k : Nat)
    (hk : k < n) (hfail : proc k = none) :
    ∀ fuel i, i ≤ k → k < i + fuel →
      (∀ j, i ≤ j → j < k → (proc j).isSome = true) →
      (sttLoop proc none n i fuel).2.2 = true := by
  intro fuel
  induction fuel with
  | zero =>
    intro i h1 h2 _
    omega
  | succ fuel ih =>
    intro i h1 h2 hsucc
    have hin : i < n := Nat.lt_of_le_of_lt h1 hk
    by_cases hik : i = k
    · subst hik
      simp [sttLoop, hin, cancelHit, hfail]
    · have hiklt : i < k := Nat.lt_of_le_of_ne h1 hik
      obtain ⟨t, ht⟩ := Option.isSome_iff_exists.1 (hsucc i Nat.le.refl hiklt)
      have htail := ih (i + 1) hiklt (by omega)
        (fun j hj1 hj2 => hsucc j (by omega) hj2)
      simp [sttLoop, hin, cancelHit, ht, htail]

/-- Helper: a run cancelled before unit k, with the earlier units succeeding,
collects exactly the results of units 0..k-1 and raises nothing. -/
theorem sttLoop_cancel_closed (proc : Nat → Option (List Char)) (n k : Nat)
    (hk : k ≤ n) (hs : ∀ j, j < k → (proc j).isSome = true) :
    ∀ fuel i, i ≤ k → k ≤ i + fuel →
      sttLoop proc (some k) n i fuel =
        ((List.range' i (k - i)).filterMap proc,
         (List.range' i (k - i)).map (fun j => (j : ℚ) / (n : ℚ) * (9 / 10)),
         false) := by
  intro fuel
  induction fuel with
  | zero =>
    intro i h1 h2
    have : i = k := by omega
    subst this
    simp [sttLoop]
  | succ fuel ih =>
    intro i h1 h2
    by_cases hik : i = k
    · subst hik
      by_cases hin : i < n
      · simp [sttLoop, hin, cancelHit]
      · simp [sttLoop, hin]
    · have hiklt : i < k := Nat.lt_of_le_of_ne h1 hik
      have hin : i < n := Nat.lt_of_lt_of_le hiklt hk
      obtain ⟨t, ht⟩ := Option.isSome_iff_exists.1 (hs i hiklt)
      have hcanc : cancelHit (some k) i = false := by
        simp [cancelHit]
        omega
      have hrange : k - i = (k - (i + 1)) + 1 := by omega
      have htail := ih (i + 1) hiklt (by omega)
      rw [hrange, List.range'_succ]
      simp [sttLoop, hin, hcanc, ht, htail]

/-- Helper: an uncancelled run whose units all succeed collects every result
and raises nothing. -/
theorem sttLoop_none_closed (proc : Nat → Option (List Char)) (n : Nat)
    (hs : ∀ j, j < n → (proc j).isSome = true) :
    ∀ fuel i, i ≤ n → n ≤ i + fuel →
      sttLoop proc none n i fuel =
        ((List.range' i (n - i)).filterMap proc,
         (List.range' i (n - i)).map (fun j => (j : ℚ) / (n : ℚ) * (9 / 10)),
         false) := by
  intro fuel
  induction fuel with
  | zero =>
    intro i h1 h2
    have : i = n := by omega
    subst this
    simp [sttLoop]
  | succ fuel ih =>
    intro i h1 h2
    by_cases hin : i < n
    · obtain ⟨t, ht⟩ := Option.isSome_iff_exists.1 (hs i hin)
      have hrange : n - i = (n - (i + 1)) + 1 := by omega
      have htail := ih (i + 1) hin (by omega)
      rw [hrange, List.range'_succ]
      simp [sttLoop, hin, cancelHit, ht, htail]
    · have : i = n := by omega
      subst this
      simp [sttLoop, hin]

/-- Helper: the loop-emitted progress values form a non-decreasing chain whose
members lie between the current fraction and 9/10. -/
theorem sttLoop_trace_bounds (proc : Nat → Option (List Char))
    (cancel? : Option Nat) (n : Nat) :
    ∀ fuel i,
      List.Chain' (fun a b => a ≤ b) (sttLoop proc cancel? n i fuel).2.1 ∧
      ∀ x ∈ (sttLoop proc cancel? n i fuel).2.1,
        (i : ℚ) / (n : ℚ) * (9 / 10) ≤ x ∧ x ≤ 9 / 10 := by
  intro fuel
  induction fuel with
  | zero =>
    intro i
    simp [sttLoop]
  | succ fuel ih =>
    intro i
    by_cases hin : i < n
    · have hn : (0 : ℚ) < (n : ℚ) := by
        have : 0 < n := by omega
        exact_mod_cast this
      have hfrac : (i : ℚ) / (n : ℚ) * (9 / 10) ≤ 9 / 10 := by
        have h1 : (i : ℚ) / (n : ℚ) ≤ 1 := by
          rw [div_le_one hn]
          exact_mod_cast Nat.le_of_lt hin
        have h0 : (0 : ℚ) ≤ (i : ℚ) / (n : ℚ) :=
          div_nonneg (by positivity) (le_of_lt hn)
        nlinarith
      have hstep : (i : ℚ) / (n : ℚ) * (9 / 10) ≤
          ((i : ℚ) + 1) / (n : ℚ) * (9 / 10) := by
        have h1 : (i : ℚ) / (n : ℚ) ≤ ((i : ℚ) + 1) / (n : ℚ) := by
          rw [div_le_div_iff_of_pos_right hn]
          linarith
        nlinarith
      by_cases hc : cancelHit cancel? i
      · simp [sttLoop, hin, hc]
      · cases hp : proc i with
        | none =>
          refine ⟨?_, ?_⟩
          · simp [sttLoop, hin, hc, hp]
          · intro x hx
            simp [sttLoop, hin, hc, hp] at hx
            subst hx
            exact ⟨le_refl _, hfrac⟩
        | some t =>
          obtain ⟨hchain, hmem⟩ := ih (i + 1)
          refine ⟨?_, ?_⟩
          · simp only [sttLoop, if_pos hin, if_neg hc, hp]
            rw [List.chain'_cons']
            refine ⟨?_, hchain⟩
            intro y hy
            have hy2 := hmem y (List.mem_of_mem_head? hy)
            have : ((i : ℚ) + 1) = ((i + 1 : Nat) : ℚ) := by push_cast; ring
            calc (i : ℚ) / (n : ℚ) * (9 / 10) ≤
                ((i : ℚ) + 1) / (n : ℚ) * (9 / 10) := hstep
            _ = ((i + 1 : Nat) : ℚ) / (n : ℚ) * (9 / 10) := by rw [this]
            _ ≤ y := hy2.1
          · intro x hx
            simp only [sttLoop, if_pos hin, if_neg hc, hp, List.mem_cons] at hx
            rcases hx with hx | hx
            · subst hx
              exact ⟨le_refl _, hfrac⟩
            · have hx2 := hmem x hx
              have : ((i : ℚ) + 1) = ((i + 1 : Nat) : ℚ) := by push_cast; ring
              refine ⟨?_, hx2.2⟩
              calc (i : ℚ) / (n : ℚ) * (9 / 10) ≤
                  ((i : ℚ) + 1) / (n : ℚ) * (9 / 10) := hstep
              _ = ((i + 1 : Nat) : ℚ) / (n : ℚ) * (9 / 10) := by rw [this]
              _ ≤ x := hx2.1
    · simp [sttLoop, hin]

/-- Helper: last element of a cons of an append of a singleton. -/
theorem getLast_cons_concat {α : Type} (x a : α) (l : List α) :
    ((x :: l) ++ [a]).getLast? = some a :=
  List.getLast?_concat _

/-- C1 counterexample: with 3 planned units where unit 1 raises and units 0, 2
would succeed, the run delivers the error callback (no text), NOT
stitch([result0, result2]) as the claim states. -/
theorem C1_counterexample :
    (sttChunkedRun procUnitOneFails none 3).1 = none ∧
    (sttChunkedRun procUnitOneFails none 3).1 ≠
      some (smart_join_transcriptions [['r', '0'], ['r', '2']]) := by
  have habort := sttLoop_abort procUnitOneFails 3 1 (by omega) rfl 3 0
    (by omega) (by omega)
    (fun j _ hj => by
      have hj0 : j = 0 := by omega
      subst hj0
      rfl)
  constructor
  · simp [sttChunkedRun, habort]
  · simp [sttChunkedRun, habort]

/-- C1 amended: a unit failure is NOT recorded-and-skipped; the exception
escapes the per-unit loop (the try/finally around the service call only
cleans up the chunk file), so the run aborts: subsequent units are not
processed, no recombination happens, and the error callback fires with the
prior successful results discarded. -/
theorem C1_amended_failure_aborts (proc : Nat → Option (List Char)) (n k : Nat)
    (hk : k < n) (hbefore : ∀ j, j < k → (proc j).isSome = true)
    (hfail : proc k = none) :
    (sttChunkedRun proc none n).1 = none := by
  have habort := sttLoop_abort proc n k hk hfail n 0 (by omega) (by omega)
    (fun j _ hj => hbefore j hj)
  simp [sttChunkedRun, habort]

/-- C1 witness: the amended behavior at the concrete 3-unit run of the
counterexample. -/
theorem C1_amended_witness :
    (sttChunkedRun procUnitOneFails none 3).1 = none :=
  C1_amended_failure_aborts procUnitOneFails 3 1 (by decide) (by decide) rfl

/-- C2 counterexample: cancelling a 3-unit run after unit 0 completed still
delivers a stitched output (the partial result of unit 0) through the success
callback, contradicting the claim that a cancelled run produces no output. -/
theorem C2_counterexample :
    (sttChunkedRun procAllSucceed (some 1) 3).1 = some ['r', '0'] ∧
    (sttChunkedRun procAllSucceed (some 1) 3).1 ≠ none := by
  have hclosed := sttLoop_cancel_closed procAllSucceed 3 1 (by omega)
    (fun j hj => by
      have hj0 : j = 0 := by omega
      subst hj0
      rfl) 3 0 (by omega) (by omega)
  constructor
  · simp only [sttChunkedRun, hclosed]
    simp [List.range', procAllSucceed, smart_join_transcriptions]
  · simp only [sttChunkedRun, hclosed]
    simp

/-- C2 amended: a run cancelled before unit k (after units 0..k-1 completed)
breaks out of the loop but still smart-joins the partial results, reports
progress 1.0, and delivers the stitched partial text through the normal
completion callback; through that channel it is indistinguishable from a
completed k-unit run. -/
theorem C2_amended_cancel_still_recombines (proc : Nat → Option (List Char))
    (n k : Nat) (hkn : k < n)
    (hs : ∀ j, j < k → (proc j).isSome = true) :
    (sttChunkedRun proc (some k) n).1 =
      some (smart_join_transcriptions ((List.range k).filterMap proc)) ∧
    (sttChunkedRun proc (some k) n).2.getLast? = some 1 ∧
    (sttChunkedRun proc (some k) n).1 = (sttChunkedRun proc none k).1 := by
  have hclosed := sttLoop_cancel_closed proc n k (Nat.le_of_lt hkn) hs n 0
    (by omega) (by omega)
  have hclosed2 := sttLoop_none_closed proc k hs k 0 (by omega) (by omega)
  rw [Nat.sub_zero] at hclosed hclosed2
  rw [← List.range_eq_range'] at hclosed hclosed2
  refine ⟨?_, ?_, ?_⟩
  · simp only [sttChunkedRun, hclosed]
    simp
  · simp only [sttChunkedRun, hclosed]
    simp only [Bool.false_eq_true, if_false]
    exact getLast_cons_concat _ _ _
  · simp only [sttChunkedRun, hclosed, hclosed2]
    simp

/-- C2 witness: the amended behavior at the concrete cancelled run of the
counterexample. -/
theorem C2_amended_witness :
    (sttChunkedRun procAllSucceed (some 1) 3).1 =
      some (smart_join_transcriptions ((List.range 1).filterMap procAllSucceed)) :=
  (C2_amended_cancel_still_recombines procAllSucceed 3 1 (by decide) (by decide)).1

/-- C8 counterexample: the chunked run emits 0.05 from _transcribe_file_task
and then the loop restarts at 0.0, so the delivered progress sequence is not
monotonically non-decreasing. -/
theorem C8_counterexample :
    (sttChunkedRun procAllSucceed none 2).2 =
      [1 / 20, 0, 9 / 20, 1] ∧
    ¬ List.Chain' (fun a b : ℚ => a ≤ b) (sttChunkedRun procAllSucceed none 2).2 := by
  have hclosed := sttLoop_none_closed procAllSucceed 2
    (fun j hj => by
      match j, hj with
      | 0, _ => rfl
      | 1, _ => rfl) 2 0 (by omega) (by omega)
  have htrace : (sttChunkedRun procAllSucceed none 2).2 = [1 / 20, 0, 9 / 20, 1] := by
    simp only [sttChunkedRun, hclosed]
    simp [List.range']
    norm_num
  refine ⟨htrace, ?_⟩
  rw [htrace]
  simp only [List.chain'_cons]
  norm_num

/-- C8 amended: progress is monotonically non-decreasing only from the second
notification onwards: after dropping the initial 0.05 the remaining trace
(the loop fractions scaled by 0.9 and the final 1.0 when nothing raises) is a
non-decreasing chain; the initial 0.05 exceeds the loop's first value 0. -/
theorem C8_amended_trace_tail_monotone (proc : Nat → Option (List Char))
    (cancel? : Option Nat) (n : Nat) :
    List.Chain' (fun a b : ℚ => a ≤ b) ((sttChunkedRun proc cancel? n).2.drop 1) := by
  obtain ⟨hchain, hmem⟩ := sttLoop_trace_bounds proc cancel? n n 0
  by_cases hexc : (sttLoop proc cancel? n 0 n).2.2
  · simp only [sttChunkedRun, if_pos hexc, List.drop_one, List.tail_cons]
    exact hchain
  · simp only [sttChunkedRun, if_neg hexc, List.cons_append, List.drop_one,
      List.tail_cons]
    rw [List.chain'_append]
    refine ⟨hchain, List.chain'_singleton 1, ?_⟩
    intro x hx y hy
    have hx2 := hmem x (List.mem_of_getLast?_eq_some hx)
    simp only [List.head?_cons, Option.mem_def, Option.some.injEq] at hy
    subst hy
    linarith [hx2.2]

/-- C9 counterexample: a run whose single unit raises delivers the error
callback without any 1.0 progress notification having been emitted. -/
theorem C9_counterexample :
    (sttChunkedRun procFirstFails none 1).1 = none ∧
    (1 : ℚ) ∉ (sttChunkedRun procFirstFails none 1).2 := by
  have habort := sttLoop_abort procFirstFails 1 0 (by omega) rfl 1 0
    (by omega) (by omega) (fun j _ hj => absurd hj (Nat.not_lt_zero j))
  obtain ⟨_, hmem⟩ := sttLoop_trace_bounds procFirstFails none 1 1 0
  refine ⟨by simp [sttChunkedRun, habort], ?_⟩
  intro hcontra
  simp only [sttChunkedRun, habort, if_true, List.mem_cons] at hcontra
  rcases hcontra with h | h
  · norm_num at h
  · have := (hmem 1 h).2
    norm_num at this

/-- C9 amended: a failed run does NOT report 100% progress: every progress
value of a run that delivers the error callback is strictly below 1; the 1.0
notification is emitted exactly on the path that delivers a success payload. -/
theorem C9_amended_no_full_progress_on_failure (proc : Nat → Option (List Char))
    (cancel? : Option Nat) (n : Nat) :
    ((sttChunkedRun proc cancel? n).1 = none →
      ∀ x ∈ (sttChunkedRun proc cancel? n).2, x < 1) ∧
    (∀ t, (sttChunkedRun proc cancel? n).1 = some t →
      (sttChunkedRun proc cancel? n).2.getLast? = some 1) := by
  obtain ⟨hchain, hmem⟩ := sttLoop_trace_bounds proc cancel? n n 0
  by_cases hexc : (sttLoop proc cancel? n 0 n).2.2
  · refine ⟨?_, ?_⟩
    · intro _ x hx
      simp only [sttChunkedRun, if_pos hexc, List.mem_cons] at hx
      rcases hx with hx | hx
      · subst hx
        norm_num
      · have := (hmem x hx).2
        linarith
    · intro t ht
      simp [sttChunkedRun, hexc] at ht
  · refine ⟨?_, ?_⟩
    · intro hnone
      simp [sttChunkedRun, hexc] at hnone
    · intro t _
      simp only [sttChunkedRun, if_neg hexc]
      exact getLast_cons_concat _ _ _

/-- C9 witness: the amended behavior at the concrete failing run of the
counterexample. -/
theorem C9_amended_witness :
    ∀ x ∈ (sttChunkedRun procFirstFails none 1).2, x < 1 :=
  (C9_amended_no_full_progress_on_failure procFirstFails none 1).1 rfl

/-- C10: for nonempty text and a valid voice, synthesize_speech with
output_path omitted raises TypeError while computing the default path
(hash(text) is an int and ints are not subscriptable), before any network
request is issued. -/
theorem C10_default_path_type_error (text : List Char) (voice : String)
    (fmt : String) (engine : String) (ht : text ≠ [])
    (hv : resolveEngine voice = some engine) :
    synthesize_speech_pre text voice fmt none = SynthPre.raised PyExc.typeError := by
  cases text with
  | nil => exact absurd rfl ht
  | cons c cs => simp [synthesize_speech_pre, hv, pySliceTo, pyHash]

/-- C10 witness: text "hello" with voice czech_male. -/
theorem C10_default_path_type_error_witness :
    synthesize_speech_pre "hello".toList "czech_male" "wav" none =
      SynthPre.raised PyExc.typeError :=
  C10_default_path_type_error "hello".toList "czech_male" "wav" "Oldrich30"
    (by decide) (by decide)

end Bakalarka
